import Mathlib

/-!
Verification development for the scikit-rf DC-extrapolation and Q-factor
fitting engine described in the repository's specification.  The repository
snapshot contains only the tutorial notebooks that call `extrapolate_to_dc`
and the `Qfactor` class; the library code itself is not part of the snapshot,
so every definition below is modelled from the specification text and is
marked accordingly.  All arithmetic is carried out over the rationals so that
every definition is executable and every concrete instance can be evaluated
by the kernel.
-/

deriving instance DecidableEq for Except

namespace SkrfSpec

/-- Modelled from the spec: complex scalar values of a frequency response
("complex-valued sample(s) at each frequency").  Represented as a pair of
rationals, since the embedding works over `ℚ`. -/
structure Cplx where
  re : ℚ
  im : ℚ
deriving DecidableEq, Repr

namespace Cplx

def add (z w : Cplx) : Cplx := ⟨z.re + w.re, z.im + w.im⟩
def sub (z w : Cplx) : Cplx := ⟨z.re - w.re, z.im - w.im⟩
def mul (z w : Cplx) : Cplx := ⟨z.re * w.re - z.im * w.im, z.re * w.im + z.im * w.re⟩
def neg (z : Cplx) : Cplx := ⟨-z.re, -z.im⟩
def conj (z : Cplx) : Cplx := ⟨z.re, -z.im⟩

/-- Squared magnitude `|z|²` (rational, hence used instead of `|z|`). -/
def magSq (z : Cplx) : ℚ := z.re * z.re + z.im * z.im

/-- Complex division; total because rational division is total
(division by a zero denominator yields zero). -/
def div (z w : Cplx) : Cplx :=
  ⟨(z.re * w.re + z.im * w.im) / magSq w, (z.im * w.re - z.re * w.im) / magSq w⟩

/-- Scalar multiplication by a rational. -/
def smul (a : ℚ) (z : Cplx) : Cplx := ⟨a * z.re, a * z.im⟩

instance : Add Cplx := ⟨add⟩
instance : Sub Cplx := ⟨sub⟩
instance : Mul Cplx := ⟨mul⟩
instance : Neg Cplx := ⟨neg⟩
instance : Div Cplx := ⟨div⟩
instance : Zero Cplx := ⟨⟨0, 0⟩⟩
instance : One Cplx := ⟨⟨1, 0⟩⟩

/-- The imaginary unit. -/
def I : Cplx := ⟨0, 1⟩

/-- Embedding of the rationals. -/
def ofRat (a : ℚ) : Cplx := ⟨a, 0⟩

theorem ext_iff {z w : Cplx} : z = w ↔ z.re = w.re ∧ z.im = w.im := by
  constructor
  · intro h; exact ⟨by rw [h], by rw [h]⟩
  · intro h; cases z; cases w; simp only [mk.injEq]; exact ⟨h.1, h.2⟩

@[simp] theorem add_re (z w : Cplx) : (z + w).re = z.re + w.re := rfl
@[simp] theorem add_im (z w : Cplx) : (z + w).im = z.im + w.im := rfl
@[simp] theorem sub_re (z w : Cplx) : (z - w).re = z.re - w.re := rfl
@[simp] theorem sub_im (z w : Cplx) : (z - w).im = z.im - w.im := rfl
@[simp] theorem smul_re (a : ℚ) (z : Cplx) : (smul a z).re = a * z.re := rfl
@[simp] theorem smul_im (a : ℚ) (z : Cplx) : (smul a z).im = a * z.im := rfl

end Cplx

/-- Modelled from the spec: a per-frequency two-port sample ("an N×N matrix
per frequency for general multiports"); the notebooks exercise two-ports, so
the embedding fixes N = 2. -/
structure SMat where
  m11 : Cplx
  m12 : Cplx
  m21 : Cplx
  m22 : Cplx
deriving DecidableEq, Repr

instance : Zero SMat := ⟨⟨0, 0, 0, 0⟩⟩

/-- Strictly increasing list of rationals (the frequency-ordering
invariant), by structural recursion so that concrete instances evaluate. -/
def strictIncr : List ℚ → Prop
  | [] => True
  | [_] => True
  | a :: b :: rest => a < b ∧ strictIncr (b :: rest)

instance strictIncrDec : (l : List ℚ) → Decidable (strictIncr l)
  | [] => .isTrue trivial
  | [_] => .isTrue trivial
  | _ :: b :: rest =>
    have : Decidable (strictIncr (b :: rest)) := strictIncrDec (b :: rest)
    inferInstanceAs (Decidable (_ ∧ _))

/-- Modelled from the spec: a FrequencyResponse is an "ordered sequence of
frequency values (strictly increasing, Hz) paired with complex-valued
sample(s) at each frequency". -/
structure FreqResponse where
  freqs : List ℚ
  vals : List SMat
deriving DecidableEq, Repr

/-- Modelled from the spec: the FrequencyResponse invariant — "frequency
count equals sample count; frequencies strictly increasing"; frequencies
start above 0 Hz (the input "starts above 0 Hz"). -/
def FreqResponse.valid (r : FreqResponse) : Prop :=
  r.freqs.length = r.vals.length ∧ strictIncr r.freqs ∧ ∀ f ∈ r.freqs, 0 < f

instance (r : FreqResponse) : Decidable r.valid := by
  unfold FreqResponse.valid; infer_instance

/-- Modelled from the spec: InterpolationBasis — "enumerated choice of which
representation to interpolate in: {S-parameters, T-parameters, ABCD, Z, Y}". -/
inductive Basis where
  | s | t | abcd | z | y
deriving DecidableEq, Repr

/-- Modelled from the spec: InterpolationKind — "enumerated choice of
extrapolation function: {linear, cubic spline, rational function}". -/
inductive InterpKind where
  | linear | cubic | rationalFn
deriving DecidableEq, Repr

/-- Modelled from the spec: error taxonomy of the DC extrapolator
(`UnsupportedBasisError` when "basis transform undefined for given data,
e.g., T-parameters at zero transmission"). -/
inductive ExError where
  | unsupportedBasis
deriving DecidableEq, Repr

/- ### Basis conversions (pure stateless transforms, per spec §9) -/

/-- Modelled from the spec: conversion of a two-port S-matrix to
T-parameters (standard wave-cascading convention, normalised reference
impedance); "T-parameters require two-port with non-zero transmission" —
the zero-transmission guard lives in `extrapolate_to_dc`. -/
def s2t (m : SMat) : SMat :=
  { m11 := (m.m12 * m.m21 - m.m11 * m.m22) / m.m21
    m12 := m.m11 / m.m21
    m21 := (0 - m.m22) / m.m21
    m22 := 1 / m.m21 }

/-- Modelled from the spec: inverse of `s2t`. -/
def t2s (m : SMat) : SMat :=
  { m11 := m.m12 / m.m22
    m12 := m.m11 - m.m12 * m.m21 / m.m22
    m21 := 1 / m.m22
    m22 := (0 - m.m21) / m.m22 }

/-- Modelled from the spec: conversion of a two-port S-matrix to impedance
(Z) parameters, normalised reference impedance `z0 = 1`. -/
def s2z (m : SMat) : SMat :=
  let d : Cplx := (1 - m.m11) * (1 - m.m22) - m.m12 * m.m21
  { m11 := ((1 + m.m11) * (1 - m.m22) + m.m12 * m.m21) / d
    m12 := (Cplx.smul 2 m.m12) / d
    m21 := (Cplx.smul 2 m.m21) / d
    m22 := ((1 - m.m11) * (1 + m.m22) + m.m12 * m.m21) / d }

/-- Modelled from the spec: inverse of `s2z` (normalised `z0 = 1`). -/
def z2s (m : SMat) : SMat :=
  let d : Cplx := (m.m11 + 1) * (m.m22 + 1) - m.m12 * m.m21
  { m11 := ((m.m11 - 1) * (m.m22 + 1) - m.m12 * m.m21) / d
    m12 := (Cplx.smul 2 m.m12) / d
    m21 := (Cplx.smul 2 m.m21) / d
    m22 := ((m.m11 + 1) * (m.m22 - 1) - m.m12 * m.m21) / d }

/-- Modelled from the spec: conversion of a two-port S-matrix to admittance
(Y) parameters, normalised reference admittance `y0 = 1`. -/
def s2y (m : SMat) : SMat :=
  let d : Cplx := (1 + m.m11) * (1 + m.m22) - m.m12 * m.m21
  { m11 := ((1 - m.m11) * (1 + m.m22) + m.m12 * m.m21) / d
    m12 := (0 - Cplx.smul 2 m.m12) / d
    m21 := (0 - Cplx.smul 2 m.m21) / d
    m22 := ((1 + m.m11) * (1 - m.m22) + m.m12 * m.m21) / d }

/-- Modelled from the spec: inverse of `s2y` (normalised `y0 = 1`). -/
def y2s (m : SMat) : SMat :=
  let d : Cplx := (1 + m.m11) * (1 + m.m22) - m.m12 * m.m21
  { m11 := ((1 - m.m11) * (1 + m.m22) + m.m12 * m.m21) / d
    m12 := (0 - Cplx.smul 2 m.m12) / d
    m21 := (0 - Cplx.smul 2 m.m21) / d
    m22 := ((1 + m.m11) * (1 - m.m22) + m.m12 * m.m21) / d }

/-- Modelled from the spec: conversion of a two-port S-matrix to ABCD
(chain) parameters, normalised `z0 = 1`. -/
def s2abcd (m : SMat) : SMat :=
  let d : Cplx := Cplx.smul 2 m.m21
  { m11 := ((1 + m.m11) * (1 - m.m22) + m.m12 * m.m21) / d
    m12 := ((1 + m.m11) * (1 + m.m22) - m.m12 * m.m21) / d
    m21 := ((1 - m.m11) * (1 - m.m22) - m.m12 * m.m21) / d
    m22 := ((1 - m.m11) * (1 + m.m22) + m.m12 * m.m21) / d }

/-- Modelled from the spec: inverse of `s2abcd` (normalised `z0 = 1`). -/
def abcd2s (m : SMat) : SMat :=
  let d : Cplx := m.m11 + m.m12 + m.m21 + m.m22
  { m11 := (m.m11 + m.m12 - m.m21 - m.m22) / d
    m12 := (Cplx.smul 2 (m.m11 * m.m22 - m.m12 * m.m21)) / d
    m21 := (Cplx.smul 2 1) / d
    m22 := ((0 - m.m11) + m.m12 - m.m21 + m.m22) / d }

/-- Modelled from the spec, step 1 of the algorithm: "Convert each
per-frequency sample matrix into the chosen basis representation (identity
transform if basis = S-parameters)". -/
def toBasis : Basis → SMat → SMat
  | .s => id
  | .t => s2t
  | .abcd => s2abcd
  | .z => s2z
  | .y => s2y

/-- Modelled from the spec, step 4 of the algorithm: "Convert the resampled
basis representation back to S-parameters". -/
def fromBasis : Basis → SMat → SMat
  | .s => id
  | .t => t2s
  | .abcd => abcd2s
  | .z => z2s
  | .y => y2s

/- ### Interpolants over the DC-augmented knot list -/

/-- Modelled from the spec: "linear: piecewise-linear interpolant between
consecutive points including the DC anchor".  Walks the knot list until the
query point falls inside the current segment; points beyond the last knot
continue the final segment. -/
def linEval : List (ℚ × Cplx) → ℚ → Cplx
  | [], _ => 0
  | [(_, y0)], _ => y0
  | (x0, y0) :: (x1, y1) :: rest, x =>
    if x ≤ x1 then y0 + Cplx.smul ((x - x0) / (x1 - x0)) (y1 - y0)
    else linEval ((x1, y1) :: rest) x

/-- Index of the segment of the knot abscissae `xs` containing `x`
(the last index `k` with `xs[k] ≤ x`, clamped to a valid segment start). -/
def segIdx (xs : List ℚ) (x : ℚ) : ℕ :=
  min (xs.length - 2) ((xs.takeWhile (fun f => f ≤ x)).length - 1)

/-- Finite-difference slope at knot `i` (one-sided at the ends, centred
inside), used by the cubic interpolant. -/
def fdSlope (ps : List (ℚ × Cplx)) (i : ℕ) : Cplx :=
  let n := ps.length
  let p := fun j => ps.getD j (0, 0)
  if n ≤ 1 then 0
  else if i = 0 then
    Cplx.smul (1 / ((p 1).1 - (p 0).1)) ((p 1).2 - (p 0).2)
  else if i = n - 1 then
    Cplx.smul (1 / ((p (n-1)).1 - (p (n-2)).1)) ((p (n-1)).2 - (p (n-2)).2)
  else
    Cplx.smul (1 / ((p (i+1)).1 - (p (i-1)).1)) ((p (i+1)).2 - (p (i-1)).2)

/-- Modelled from the spec: "cubic: cubic spline interpolant through all
points including the DC anchor, producing continuous first derivative" —
realised as a cubic Hermite interpolant with finite-difference knot slopes
(interpolates every knot and has a continuous first derivative). -/
def cubicEval (ps : List (ℚ × Cplx)) (x : ℚ) : Cplx :=
  if ps.length ≤ 1 then (ps.getD 0 (0, 0)).2
  else
    let k := segIdx (ps.map Prod.fst) x
    let p0 := ps.getD k (0, 0)
    let p1 := ps.getD (k+1) (0, 0)
    let h := p1.1 - p0.1
    let s := (x - p0.1) / h
    let m0 := fdSlope ps k
    let m1 := fdSlope ps (k+1)
    Cplx.smul (2*s^3 - 3*s^2 + 1) p0.2 + Cplx.smul (-(2*s^3) + 3*s^2) p1.2 +
      Cplx.smul (h * (s^3 - 2*s^2 + s)) m0 + Cplx.smul (h * (s^3 - s^2)) m1

/-- Weighted sums `(Σ wᵢ yᵢ/(x−xᵢ), Σ wᵢ/(x−xᵢ))` of the barycentric
rational interpolant, with alternating weights `wᵢ = (−1)ⁱ` (sign carried
by the first argument). -/
def berrutSums (sgn : ℚ) : List (ℚ × Cplx) → ℚ → Cplx × Cplx
  | [], _ => (0, 0)
  | (x0, y0) :: rest, x =>
    let (num, den) := berrutSums (-sgn) rest x
    let c : Cplx := Cplx.ofRat (sgn / (x - x0))
    (c * y0 + num, c + den)

/-- Modelled from the spec: "rational: rational-function interpolant (more
stable near sharp features, avoids spline overshoot)" — realised as the
barycentric rational interpolant with alternating weights (Berrut's first
interpolant, pole-free on the knot interval).  At a knot the knot value is
returned. -/
def rationalEval (ps : List (ℚ × Cplx)) (x : ℚ) : Cplx :=
  match ps.find? (fun p => p.1 = x) with
  | some p => p.2
  | none => let (num, den) := berrutSums 1 ps x
            num / den

/-- Modelled from the spec, step 2: dispatch on the requested
InterpolationKind. -/
def interpEval : InterpKind → List (ℚ × Cplx) → ℚ → Cplx
  | .linear => linEval
  | .cubic => cubicEval
  | .rationalFn => rationalEval

/-- Modelled from the spec, step 2: "For each matrix element (as an
independent scalar function of frequency), fit an interpolant of the
requested kind" — elementwise interpolation of the 2×2 samples. -/
def interpMat (kind : InterpKind) (ps : List (ℚ × SMat)) (x : ℚ) : SMat :=
  { m11 := interpEval kind (ps.map fun p => (p.1, p.2.m11)) x
    m12 := interpEval kind (ps.map fun p => (p.1, p.2.m12)) x
    m21 := interpEval kind (ps.map fun p => (p.1, p.2.m21)) x
    m22 := interpEval kind (ps.map fun p => (p.1, p.2.m22)) x }

/- ### The DC extrapolator -/

/-- Consecutive spacings of a frequency list. -/
def spacings (fs : List ℚ) : List ℚ := List.zipWith (fun a b => b - a) fs fs.tail

/-- Modelled from the spec: "the smallest original spacing" of the input
frequency grid (`1` on degenerate lists with fewer than two points, never
reached on valid input). -/
def minSpacing (fs : List ℚ) : ℚ :=
  match spacings fs with
  | [] => 1
  | s :: rest => rest.foldl min s

/-- Modelled from the spec, step 3: "a new uniform frequency grid from 0 Hz
to the original maximum, with spacing equal to the smallest original
spacing" — the multiples `0, Δ, 2Δ, …` of the smallest spacing `Δ`, carried
far enough (`⌈fmax/Δ⌉` steps) to cover the original maximum frequency. -/
def dcGrid (fs : List ℚ) : List ℚ :=
  let dv := minSpacing fs
  let n : ℕ := (⌈fs.getLastD 0 / dv⌉).toNat
  List.map (fun i : ℕ => (i : ℚ) * dv) (List.range (n + 1))

/-- Modelled from the spec: `extrapolate_to_dc(response, dc_value, kind,
basis) -> response'`.  Steps: T-basis guard ("if the basis is T-parameters
and any transmission value is (near) zero, raise `UnsupportedBasisError`"),
conversion of the samples and the DC anchor into the chosen basis,
interpolation over the DC-augmented knots, evaluation on the uniform grid,
and conversion back to S-parameters. -/
def extrapolate_to_dc (r : FreqResponse) (dc : SMat) (kind : InterpKind)
    (basis : Basis) : Except ExError FreqResponse :=
  if basis = .t ∧ r.vals.any (fun m => m.m21 = 0) then
    .error .unsupportedBasis
  else
    let knots : List (ℚ × SMat) :=
      (0, toBasis basis dc) :: (r.freqs.zip (r.vals.map (toBasis basis)))
    let grid := dcGrid r.freqs
    .ok { freqs := grid
          vals := grid.map (fun x => fromBasis basis (interpMat kind knots x)) }

/- ### Q-factor fitter -/

/-- Modelled from the spec: the scalar frequency response handed to the
Q-factor fitter ("complex frequency response restricted to a band around
one resonance"). -/
structure QInput where
  freqs : List ℚ
  vals : List Cplx
deriving DecidableEq, Repr

/-- Modelled from the spec: the response invariant for the fitter —
frequency count equals sample count, frequencies strictly increasing and
positive (the model's fractional offset divides by `f`). -/
def QInput.valid (inp : QInput) : Prop :=
  inp.freqs.length = inp.vals.length ∧ strictIncr inp.freqs ∧ ∀ f ∈ inp.freqs, 0 < f

instance (inp : QInput) : Decidable inp.valid := by
  unfold QInput.valid; infer_instance

/-- Modelled from the spec: resonance-type tag {reflection, transmission}. -/
inductive ResType where
  | reflection | transmission
deriving DecidableEq, Repr

/-- Modelled from the spec: error taxonomy of the Q-factor fitter. -/
inductive QError where
  | insufficientData | fitDidNotConverge | noFitAvailable | invalidFrequencyRange
deriving DecidableEq, Repr

/-- Modelled from the spec: the fitted parameters of the resonance model
`S(f) = S_D + d·e^(−2jδ)/(1 + j·Q_L·𝓕(f))`.  The real diameter `d` and the
angle `δ` enter the model only through the product `d·e^(−2jδ)`, stored here
as the single complex field `dee` (its polar decomposition recovers `d` and
`δ`; the decomposition itself is irrational and therefore not a field of the
rational embedding). -/
structure FitResult where
  S_D : Cplx
  dee : Cplx
  f_L : ℚ
  Q_L : ℚ
deriving DecidableEq, Repr

/-- Modelled from the spec: the fractional offset frequency
`𝓕(f) = f/f_L − f_L/f`. -/
def fracOffset (fL f : ℚ) : ℚ := f / fL - fL / f

/-- Modelled from the spec: forward evaluation of the fitted resonance
model at one frequency. -/
def modelEval (r : FitResult) (f : ℚ) : Cplx :=
  r.S_D + r.dee / (1 + Cplx.I * Cplx.ofRat (r.Q_L * fracOffset r.f_L f))

/-- Clamp a rational into the closed interval `[lo, hi]`. -/
def clampQ (lo hi x : ℚ) : ℚ := max lo (min x hi)

/-- Modelled from the spec: initial `f_L` estimate — "the frequency of
extremal |S| (minimum for reflection dip / maximum for transmission peak)
within the provided band" (squared magnitudes compare identically). -/
def extremalFreq (rt : ResType) (ps : List (ℚ × Cplx)) : ℚ :=
  match ps with
  | [] => 0
  | p :: rest =>
    (rest.foldl (fun best q =>
      match rt with
      | .reflection => if Cplx.magSq q.2 < Cplx.magSq best.2 then q else best
      | .transmission => if Cplx.magSq best.2 < Cplx.magSq q.2 then q else best) p).1

/-- Frequencies of the samples on the resonant side of the half-power
threshold, used by the bandwidth heuristic. -/
def halfPowerBand (rt : ResType) (ps : List (ℚ × Cplx)) : List ℚ :=
  let mags := ps.map (fun p => Cplx.magSq p.2)
  let mx := mags.foldl max 0
  let mn := mags.foldl min mx
  match rt with
  | .transmission => (ps.filter (fun p => mx / 2 ≤ Cplx.magSq p.2)).map Prod.fst
  | .reflection => (ps.filter (fun p => Cplx.magSq p.2 ≤ (mn + mx) / 2)).map Prod.fst

/-- Modelled from the spec: initial `Q_L` estimate — "estimate Q_L from the
3 dB (transmission) or 45°-rotation (reflection) half-power bandwidth
heuristic", realised as `f_L / bandwidth` with a positive fallback (the
iteration requires `Q_L > 0`). -/
def initQ (rt : ResType) (ps : List (ℚ × Cplx)) (fL : ℚ) : ℚ :=
  if 0 < fL / ((halfPowerBand rt ps).getLastD 0 - (halfPowerBand rt ps).headD 0)
  then fL / ((halfPowerBand rt ps).getLastD 0 - (halfPowerBand rt ps).headD 0)
  else 1

/-- 3×3 determinant over the complex rationals, used to solve the normal
equations of the linearised least-squares pass by Cramer's rule. -/
def det3 (a b c d e f g h i : Cplx) : Cplx :=
  a * (e * i - f * h) - b * (d * i - f * g) + c * (d * h - e * g)

/-- Sum of a list of complex values. -/
def sumC (l : List Cplx) : Cplx := l.foldl (· + ·) 0

/-- Modelled from the spec: one pass of the iterative weighted
least-squares fit ("iterate (e.g., weighted least squares with re-weighting
passes)"; the re-weighting schedule is explicitly left open by the spec, so
unit weights are used).  The model is linearised fractionally:
`S_k = α + β·t_k − γ·(j·t_k·S_k)` with complex unknowns `α, β, γ`, solved in
closed form via the 3×3 complex normal equations; the complex `γ` absorbs
both `Q_L` and the residual detuning of `f_L`
(`1/γ = 1/Q_L − 2j·(f_true − f_L)/f_L`), giving the parameter updates.  The
updates are clamped so the iteration "must not diverge — bound Q_L > 0 and
f_L within the supplied frequency band". -/
def kajfezStep (ps : List (ℚ × Cplx)) (fmin fmax : ℚ) (θ : FitResult) : FitResult :=
  let dat : List (Cplx × Cplx × Cplx) := ps.map (fun p =>
    let t := fracOffset θ.f_L p.1
    (Cplx.ofRat t, (0 - Cplx.I) * Cplx.ofRat t * p.2, p.2))
  let m11 : Cplx := Cplx.ofRat (ps.length : ℚ)
  let m12 := sumC (dat.map fun d => d.1)
  let m13 := sumC (dat.map fun d => d.2.1)
  let m22 := sumC (dat.map fun d => Cplx.conj d.1 * d.1)
  let m23 := sumC (dat.map fun d => Cplx.conj d.1 * d.2.1)
  let m33 := sumC (dat.map fun d => Cplx.conj d.2.1 * d.2.1)
  let v1 := sumC (dat.map fun d => d.2.2)
  let v2 := sumC (dat.map fun d => Cplx.conj d.1 * d.2.2)
  let v3 := sumC (dat.map fun d => Cplx.conj d.2.1 * d.2.2)
  let m21 := Cplx.conj m12
  let m31 := Cplx.conj m13
  let m32 := Cplx.conj m23
  let det := det3 m11 m12 m13 m21 m22 m23 m31 m32 m33
  let alpha := det3 v1 m12 m13 v2 m22 m23 v3 m32 m33 / det
  let beta := det3 m11 v1 m13 m21 v2 m23 m31 v3 m33 / det
  let gamma := det3 m11 m12 v1 m21 m22 v2 m31 m32 v3 / det
  let invg := Cplx.div 1 gamma
  let qNew := if 0 < invg.re then 1 / invg.re else θ.Q_L
  let fNew := clampQ fmin fmax (θ.f_L * (1 - invg.im / 2))
  let sD := beta / (Cplx.I * gamma)
  { S_D := sD, dee := alpha - sD, f_L := fNew, Q_L := qNew }

/-- Modelled from the spec: the convergence tolerance on the parameter
change between successive passes. -/
def fitTol : ℚ := 1 / 1000000

/-- Modelled from the spec: the maximum iteration count of the fit loop. -/
def maxFitIters : ℕ := 20

/-- Modelled from the spec: the fit iteration — "iterate … until parameter
change falls below a tolerance or a maximum iteration count is reached";
an exhausted budget yields `FitDidNotConvergeError`. -/
def fitLoop (ps : List (ℚ × Cplx)) (fmin fmax : ℚ) :
    ℕ → FitResult → Except QError FitResult
  | 0, _ => .error .fitDidNotConverge
  | n + 1, θ =>
    let θ' := kajfezStep ps fmin fmax θ
    if |θ'.f_L - θ.f_L| + |θ'.Q_L - θ.Q_L| ≤ fitTol then .ok θ'
    else fitLoop ps fmin fmax n θ'

/-- Modelled from the spec: the full fit computation — data sufficiency
check ("`InsufficientDataError` when fewer than 5 frequency points are
provided"), frequency-range validation (`InvalidFrequencyRangeError`),
initial-guess derivation, then the bounded iteration. -/
def fitCompute (inp : QInput) (rt : ResType) : Except QError FitResult :=
  if inp.freqs.length < 5 then .error .insufficientData
  else if ¬ inp.valid then .error .invalidFrequencyRange
  else
    let ps := inp.freqs.zip inp.vals
    let fmin := inp.freqs.headD 0
    let fmax := inp.freqs.getLastD 0
    let fL0 := clampQ fmin fmax (extremalFreq rt ps)
    let θ0 : FitResult := { S_D := 0, dee := 0, f_L := fL0, Q_L := initQ rt ps fL0 }
    fitLoop ps fmin fmax maxFitIters θ0

/-- Modelled from the spec: the Qfactor object — captured input response,
resonance type, and the "last fit result cached on the object" as an
explicit `Option FitResult` field with overwrite-on-refit semantics. -/
structure Qfactor where
  input : QInput
  resType : ResType
  lastFit : Option FitResult
deriving DecidableEq, Repr

/-- Modelled from the spec: the `Qfactor(response, res_type)` constructor;
no fit has been performed yet. -/
def Qfactor.make (inp : QInput) (rt : ResType) : Qfactor :=
  { input := inp, resType := rt, lastFit := none }

/-- Modelled from the spec: `fit() -> FitResult` — runs the fit on the
captured response and stores the result internally (fully overwriting any
previous fit state); on failure no partial result is produced and the
stored state is untouched. -/
def Qfactor.fit (q : Qfactor) : Except QError (FitResult × Qfactor) :=
  match fitCompute q.input q.resType with
  | .ok r => .ok (r, { q with lastFit := some r })
  | .error e => .error e

/-- Modelled from the spec: `BW` (property): `Δf = f_L / Q_L` —
straightforward derived value from the most recent fit, no fitting
involved. -/
def Qfactor.BW (q : Qfactor) : Except QError ℚ :=
  match q.lastFit with
  | some r => .ok (r.f_L / r.Q_L)
  | none => .error .noFitAvailable

/-- Modelled from the spec: the coupling factor β, "derived from the ratio
of the circle diameter to the distance from S_D to the origin (reflection)
or an equivalent transmission relation".  Magnitudes appear squared because
square roots are unavailable over ℚ; the claims about `Q_unloaded` concern
which stored fit is used and when the call fails, not the numeric relation. -/
def couplingBeta (rt : ResType) (r : FitResult) : ℚ :=
  match rt with
  | .reflection => Cplx.magSq r.dee / Cplx.magSq r.S_D
  | .transmission => Cplx.magSq r.dee / (1 - Cplx.magSq r.dee)

/-- Modelled from the spec: `Q_0 = (1+β)·Q_L` for the appropriate β. -/
def unloadedOf (rt : ResType) (r : FitResult) : ℚ :=
  (1 + couplingBeta rt r) * r.Q_L

/-- Modelled from the spec: `Q_unloaded(fit_result=None)` — "uses the most
recent internal fit if no explicit result passed; fails with
`NoFitAvailableError` if `fit()` was never called and none is passed". -/
def Qfactor.Q_unloaded (q : Qfactor) (res : Option FitResult) : Except QError ℚ :=
  match res with
  | some r => .ok (unloadedOf q.resType r)
  | none =>
    match q.lastFit with
    | some r => .ok (unloadedOf q.resType r)
    | none => .error .noFitAvailable

/-- Modelled from the spec: `fitted_network(fit_result, frequency)` —
"evaluates the fitted model at an arbitrary caller-supplied frequency grid
… pure forward evaluation of the model equation, no fitting"; like
`Q_unloaded`, an omitted fit result falls back to the most recent internal
fit. -/
def Qfactor.fitted_network (q : Qfactor) (res : Option FitResult) (freq : List ℚ) :
    Except QError QInput :=
  match res with
  | some r => .ok { freqs := freq, vals := freq.map (modelEval r) }
  | none =>
    match q.lastFit with
    | some r => .ok { freqs := freq, vals := freq.map (modelEval r) }
    | none => .error .noFitAvailable

/-- Modelled from the spec: the `f_L` attribute shown by the notebooks
(`Q.f_L` after a fit) — the loaded resonant frequency of the most recent
fit. -/
def Qfactor.f_L (q : Qfactor) : Option ℚ := q.lastFit.map FitResult.f_L

/-- Modelled from the spec: the `Q_L` attribute shown by the notebooks
(`Q.Q_L` after a fit) — the loaded Q of the most recent fit. -/
def Qfactor.Q_L (q : Qfactor) : Option ℚ := q.lastFit.map FitResult.Q_L

/- ### Helper lemmas -/

theorem strictIncr_cons_cons {a b : ℚ} {l : List ℚ} :
    strictIncr (a :: b :: l) ↔ a < b ∧ strictIncr (b :: l) := Iff.rfl

theorem strictIncr_tail {a : ℚ} {l : List ℚ} (h : strictIncr (a :: l)) :
    strictIncr l := by
  cases l with
  | nil => trivial
  | cons b t => exact h.2

theorem getLastD_irrel {α : Type} {l : List α} (hne : l ≠ []) (d d' : α) :
    l.getLastD d = l.getLastD d' := by
  cases l with
  | nil => exact absurd rfl hne
  | cons a t => simp only [List.getLastD_cons]

theorem strictIncr_le_getLastD {l : List ℚ} {x : ℚ} (h : strictIncr (x :: l)) (d : ℚ) :
    x ≤ (x :: l).getLastD d := by
  induction l generalizing x with
  | nil => simp [List.getLastD_cons]
  | cons b t ih =>
    have h2 : b ≤ (b :: t).getLastD d := ih h.2
    have h3 : (x :: b :: t).getLastD d = (b :: t).getLastD d := by
      rw [List.getLastD_cons]
      exact getLastD_irrel (by simp) x d
    rw [h3]
    exact le_of_lt (lt_of_lt_of_le h.1 h2)

theorem strictIncr_lt_getLastD {l : List ℚ} {x : ℚ} (h : strictIncr (x :: l))
    (hne : l ≠ []) (d : ℚ) : x < l.getLastD d := by
  cases l with
  | nil => exact absurd rfl hne
  | cons b t =>
    exact lt_of_lt_of_le h.1 (strictIncr_le_getLastD h.2 d)

theorem getLastD_zip {α β : Type} (fs : List α) (vs : List β) (d1 : α) (d2 : β)
    (hlen : fs.length = vs.length) :
    (fs.zip vs).getLastD (d1, d2) = (fs.getLastD d1, vs.getLastD d2) := by
  induction fs generalizing vs d1 d2 with
  | nil => cases vs with
    | nil => rfl
    | cons b bs => simp at hlen
  | cons a as ih =>
    cases vs with
    | nil => simp at hlen
    | cons b bs =>
      have hlen' : as.length = bs.length := by simpa using hlen
      show ((a, b) :: as.zip bs).getLastD (d1, d2) = _
      rw [List.getLastD_cons, List.getLastD_cons, List.getLastD_cons]
      exact ih bs a b hlen'

theorem foldl_min_le (l : List ℚ) (a : ℚ) : ∀ x ∈ a :: l, l.foldl min a ≤ x := by
  induction l generalizing a with
  | nil => intro x hx; simp at hx; simp [hx]
  | cons b t ih =>
    intro x hx
    simp only [List.mem_cons] at hx
    rcases hx with rfl | rfl | hx
    · calc t.foldl min (min x b) ≤ min x b := ih (min x b) _ (by simp)
      _ ≤ x := min_le_left _ _
    · calc t.foldl min (min a x) ≤ min a x := ih (min a x) _ (by simp)
      _ ≤ x := min_le_right _ _
    · exact ih (min a b) x (by simp [hx])

theorem foldl_min_mem (l : List ℚ) (a : ℚ) : l.foldl min a ∈ a :: l := by
  induction l generalizing a with
  | nil => simp
  | cons b t ih =>
    simp only [List.foldl_cons]
    have h := ih (min a b)
    simp only [List.mem_cons] at h ⊢
    rcases h with h | h
    · rcases min_choice a b with hm | hm
      · exact Or.inl (h.trans hm)
      · exact Or.inr (Or.inl (h.trans hm))
    · tauto

theorem spacings_pos {fs : List ℚ} (h : strictIncr fs) : ∀ s ∈ spacings fs, 0 < s := by
  induction fs with
  | nil => intro s hs; simp [spacings] at hs
  | cons a t ih =>
    intro s hs
    cases t with
    | nil => simp [spacings] at hs
    | cons b u =>
      simp only [spacings, List.tail_cons, List.zipWith_cons_cons, List.mem_cons] at hs
      rcases hs with rfl | hs
      · exact sub_pos.mpr h.1
      · exact ih h.2 s hs

theorem spacings_length (fs : List ℚ) : (spacings fs).length = fs.length - 1 := by
  cases fs with
  | nil => rfl
  | cons a t => simp [spacings]

theorem minSpacing_mem {fs : List ℚ} (h2 : 2 ≤ fs.length) :
    minSpacing fs ∈ spacings fs := by
  obtain ⟨s, rest, hs⟩ : ∃ s rest, spacings fs = s :: rest := by
    cases hsp : spacings fs with
    | nil =>
      have hlen := spacings_length fs
      rw [hsp] at hlen
      simp at hlen
      omega
    | cons s rest => exact ⟨s, rest, rfl⟩
  have hm : minSpacing fs = rest.foldl min s := by
    unfold minSpacing
    rw [hs]
  rw [hm, hs]
  exact foldl_min_mem rest s

theorem minSpacing_le {fs : List ℚ} (h2 : 2 ≤ fs.length) :
    ∀ s ∈ spacings fs, minSpacing fs ≤ s := by
  intro x hx
  obtain ⟨s, rest, hs⟩ : ∃ s rest, spacings fs = s :: rest := by
    cases hsp : spacings fs with
    | nil => rw [hsp] at hx; simp at hx
    | cons s rest => exact ⟨s, rest, rfl⟩
  rw [hs] at hx
  have hm : minSpacing fs = rest.foldl min s := by
    unfold minSpacing
    rw [hs]
  rw [hm]
  exact foldl_min_le rest s x hx

theorem minSpacing_pos {fs : List ℚ} (hinc : strictIncr fs) (h2 : 2 ≤ fs.length) :
    0 < minSpacing fs :=
  spacings_pos hinc _ (minSpacing_mem h2)

/- ### A concrete synthetic resonance, used by the witnesses

The samples are generated exactly from the resonance model with
`S_D = 1`, `d·e^(−2jδ) = −1/2`, `f_L = 100`, `Q_L = 10`, so the fit
recovers the parameters exactly and converges in two passes. -/

/-- The exact model parameters of the synthetic resonance. -/
def resonTrue : FitResult := { S_D := ⟨1, 0⟩, dee := ⟨-1/2, 0⟩, f_L := 100, Q_L := 10 }

/-- Five samples of the synthetic resonance around `f_L = 100`. -/
def resonInput : QInput :=
  { freqs := [98, 99, 100, 101, 102]
    vals := [98, 99, 100, 101, 102].map (fun f => modelEval resonTrue f) }

/-- The paired sample list of the synthetic resonance. -/
def resonPs : List (ℚ × Cplx) := resonInput.freqs.zip resonInput.vals

/-- A freshly constructed Qfactor object over the synthetic resonance. -/
def resonQ : Qfactor := Qfactor.make resonInput .reflection

/-- The initial parameter guess the fitter derives for the synthetic
resonance (extremal-|S| frequency 100, bandwidth-heuristic Q of 50). -/
def resonStart : FitResult := { S_D := 0, dee := 0, f_L := 100, Q_L := 50 }

/-- The Qfactor object after a successful fit of the synthetic resonance. -/
def resonQ2 : Qfactor := { resonQ with lastFit := some resonTrue }

/-- Unfolding equation of one pass of the fit loop. -/
theorem fitLoop_succ_eq (ps : List (ℚ × Cplx)) (fmin fmax : ℚ) (n : ℕ) (θ : FitResult) :
    fitLoop ps fmin fmax (n + 1) θ =
      if |(kajfezStep ps fmin fmax θ).f_L - θ.f_L| +
          |(kajfezStep ps fmin fmax θ).Q_L - θ.Q_L| ≤ fitTol
      then .ok (kajfezStep ps fmin fmax θ)
      else fitLoop ps fmin fmax n (kajfezStep ps fmin fmax θ) := rfl

/-- First fit pass on the synthetic resonance: the linearised solve
recovers the exact parameters in one step. -/
theorem resonStep0 : kajfezStep resonPs 98 102 resonStart = resonTrue := by
  with_unfolding_all rfl

/-- Second fit pass: the exact parameters are a fixed point. -/
theorem resonStep1 : kajfezStep resonPs 98 102 resonTrue = resonTrue := by
  with_unfolding_all rfl

/-- The fit loop on the synthetic resonance converges at the second pass. -/
theorem resonLoop : fitLoop resonPs 98 102 maxFitIters resonStart = .ok resonTrue := by
  rw [show maxFitIters = 19 + 1 from rfl, fitLoop_succ_eq, resonStep0,
    if_neg (by with_unfolding_all decide),
    show (19 : ℕ) = 18 + 1 from rfl, fitLoop_succ_eq, resonStep1,
    if_pos (by with_unfolding_all decide)]

set_option maxRecDepth 4000 in
/-- The full fit computation on the synthetic resonance. -/
theorem resonFitCompute : fitCompute resonInput .reflection = .ok resonTrue := by
  unfold fitCompute
  rw [if_neg (by with_unfolding_all decide), if_neg (by with_unfolding_all decide)]
  show fitLoop resonPs (resonInput.freqs.headD 0) (resonInput.freqs.getLastD 0) maxFitIters
    { S_D := 0, dee := 0,
      f_L := clampQ (resonInput.freqs.headD 0) (resonInput.freqs.getLastD 0)
        (extremalFreq ResType.reflection resonPs)
      Q_L := initQ ResType.reflection resonPs
        (clampQ (resonInput.freqs.headD 0) (resonInput.freqs.getLastD 0)
          (extremalFreq ResType.reflection resonPs)) } = .ok resonTrue
  rw [show resonInput.freqs.headD 0 = 98 from rfl,
    show resonInput.freqs.getLastD 0 = 102 from rfl,
    show extremalFreq ResType.reflection resonPs = 100 from by with_unfolding_all decide,
    show clampQ 98 102 100 = 100 from by with_unfolding_all decide,
    show initQ ResType.reflection resonPs 100 = 50 from by with_unfolding_all decide]
  exact resonLoop

/-- `fit()` on the synthetic resonance succeeds with the exact parameters
and stores them on the returned object. -/
theorem resonFit_eq : Qfactor.fit resonQ = .ok (resonTrue, resonQ2) := by
  unfold Qfactor.fit
  rw [show resonQ.input = resonInput from rfl,
    show resonQ.resType = ResType.reflection from rfl, resonFitCompute]
  rfl

/- ### Bounds preserved by the fit iteration -/

theorem initQ_pos (rt : ResType) (ps : List (ℚ × Cplx)) (fL : ℚ) :
    0 < initQ rt ps fL := by
  unfold initQ
  split
  · assumption
  · exact one_pos

theorem clampQ_le {lo hi : ℚ} (x : ℚ) (h : lo ≤ hi) :
    lo ≤ clampQ lo hi x ∧ clampQ lo hi x ≤ hi :=
  ⟨le_max_left lo _, max_le h (min_le_right x hi)⟩

theorem kajfezStep_bounds (ps : List (ℚ × Cplx)) (fmin fmax : ℚ) (θ : FitResult)
    (hle : fmin ≤ fmax) (hq : 0 < θ.Q_L) :
    0 < (kajfezStep ps fmin fmax θ).Q_L ∧
      fmin ≤ (kajfezStep ps fmin fmax θ).f_L ∧
      (kajfezStep ps fmin fmax θ).f_L ≤ fmax := by
  unfold kajfezStep
  refine ⟨?_, (clampQ_le _ hle).1, (clampQ_le _ hle).2⟩
  dsimp only
  split
  · next h => exact one_div_pos.mpr h
  · exact hq

theorem fitLoop_bounds (ps : List (ℚ × Cplx)) (fmin fmax : ℚ) (hle : fmin ≤ fmax) :
    ∀ (fuel : ℕ) (θ θf : FitResult), 0 < θ.Q_L →
      fitLoop ps fmin fmax fuel θ = .ok θf →
      0 < θf.Q_L ∧ fmin ≤ θf.f_L ∧ θf.f_L ≤ fmax := by
  intro fuel
  induction fuel with
  | zero => intro θ θf _ h; exact absurd h (by simp [fitLoop])
  | succ n ih =>
    intro θ θf hq h
    rw [fitLoop_succ_eq] at h
    split at h
    · cases h
      exact kajfezStep_bounds ps fmin fmax θ hle hq
    · exact ih _ _ (kajfezStep_bounds ps fmin fmax θ hle hq).1 h

theorem fitLoop_error (ps : List (ℚ × Cplx)) (fmin fmax : ℚ) :
    ∀ (fuel : ℕ) (θ : FitResult) (e : QError),
      fitLoop ps fmin fmax fuel θ = .error e → e = .fitDidNotConverge := by
  intro fuel
  induction fuel with
  | zero =>
    intro θ e h
    unfold fitLoop at h
    cases h
    rfl
  | succ n ih =>
    intro θ e h
    rw [fitLoop_succ_eq] at h
    split at h
    · cases h
    · exact ih _ _ h

theorem valid_head_le_last {inp : QInput} (hval : inp.valid) (hne : inp.freqs ≠ []) :
    inp.freqs.headD 0 ≤ inp.freqs.getLastD 0 := by
  obtain ⟨x, l, hx⟩ : ∃ x l, inp.freqs = x :: l := by
    cases hf : inp.freqs with
    | nil => exact absurd hf hne
    | cons x l => exact ⟨x, l, rfl⟩
  have hinc : strictIncr (x :: l) := by
    have h2 := hval.2.1
    rw [hx] at h2
    exact h2
  rw [hx]
  simpa using strictIncr_le_getLastD hinc 0

theorem fitCompute_bounds (inp : QInput) (rt : ResType) (r : FitResult)
    (h : fitCompute inp rt = .ok r) :
    0 < r.Q_L ∧ inp.freqs.headD 0 ≤ r.f_L ∧ r.f_L ≤ inp.freqs.getLastD 0 := by
  unfold fitCompute at h
  split at h
  · cases h
  · next hlen =>
    split at h
    · cases h
    · next hval =>
      have hval' : inp.valid := not_not.mp hval
      have hne : inp.freqs ≠ [] := by
        intro h0
        rw [h0] at hlen
        simp at hlen
      exact fitLoop_bounds _ _ _ (valid_head_le_last hval' hne) _ _ _
        (initQ_pos rt _ _) h

/-- Inversion of a successful `fit()`: the underlying computation
succeeded and the returned object stores the new result. -/
theorem fit_ok_inv {q : Qfactor} {r : FitResult} {q' : Qfactor}
    (h : Qfactor.fit q = .ok (r, q')) :
    fitCompute q.input q.resType = .ok r ∧ q' = { q with lastFit := some r } := by
  unfold Qfactor.fit at h
  cases hcc : fitCompute q.input q.resType with
  | error e => rw [hcc] at h; cases h
  | ok r0 =>
    rw [hcc] at h
    cases h
    exact ⟨rfl, rfl⟩

/- ### Claim theorems for the Q-factor fitter -/

/-- C3: for every input response for which `fit()` returns successfully,
the returned fit result satisfies `Q_L > 0` and `f_L` lies within the
frequency band of the supplied response; the iteration never diverges
outside these bounds. -/
theorem qfactor_fit_bounds (q : Qfactor) (r : FitResult) (q' : Qfactor)
    (h : Qfactor.fit q = .ok (r, q')) :
    0 < r.Q_L ∧ q.input.freqs.headD 0 ≤ r.f_L ∧ r.f_L ≤ q.input.freqs.getLastD 0 := by
  obtain ⟨hc, rfl⟩ := fit_ok_inv h
  exact fitCompute_bounds _ _ _ hc

/-- Witness for C3: the fit of the synthetic resonance yields `Q_L = 10 > 0`
and `f_L = 100` inside the band `[98, 102]`. -/
theorem qfactor_fit_bounds_witness :
    0 < resonTrue.Q_L ∧ resonQ.input.freqs.headD 0 ≤ resonTrue.f_L ∧
      resonTrue.f_L ≤ resonQ.input.freqs.getLastD 0 :=
  qfactor_fit_bounds resonQ resonTrue resonQ2 resonFit_eq

/-- C7: calling `fit()` twice on unchanged input yields identical fit
parameters, and each `fit()` call fully overwrites the stored fit state. -/
theorem qfactor_fit_idempotent (q : Qfactor) (r : FitResult) (q' : Qfactor)
    (h : Qfactor.fit q = .ok (r, q')) :
    Qfactor.fit q' = .ok (r, q') ∧ q'.lastFit = some r := by
  obtain ⟨hc, rfl⟩ := fit_ok_inv h
  refine ⟨?_, rfl⟩
  unfold Qfactor.fit
  rw [show ({ q with lastFit := some r } : Qfactor).input = q.input from rfl,
    show ({ q with lastFit := some r } : Qfactor).resType = q.resType from rfl, hc]

/-- Witness for C7: refitting the already-fitted synthetic-resonance object
returns the same parameters and the same stored state. -/
theorem qfactor_fit_idempotent_witness :
    Qfactor.fit resonQ2 = .ok (resonTrue, resonQ2) ∧ resonQ2.lastFit = some resonTrue :=
  qfactor_fit_idempotent resonQ resonTrue resonQ2 resonFit_eq

/-- C2: after a successful `fit()`, the `BW` property equals exactly
`f_L / Q_L` of the most recent fit, and computing `BW` performs no new
fitting (it depends only on the stored fit state). -/
theorem qfactor_BW_eq (q : Qfactor) (r : FitResult) (q' : Qfactor)
    (h : Qfactor.fit q = .ok (r, q')) :
    Qfactor.BW q' = .ok (r.f_L / r.Q_L) ∧
      ∀ q₁ q₂ : Qfactor, q₁.lastFit = q₂.lastFit → Qfactor.BW q₁ = Qfactor.BW q₂ := by
  obtain ⟨hc, rfl⟩ := fit_ok_inv h
  constructor
  · rfl
  · intro q₁ q₂ hl
    unfold Qfactor.BW
    rw [hl]

/-- Witness for C2: the bandwidth of the fitted synthetic resonance is
`f_L / Q_L = 100 / 10`. -/
theorem qfactor_BW_eq_witness :
    Qfactor.BW resonQ2 = .ok (resonTrue.f_L / resonTrue.Q_L) :=
  (qfactor_BW_eq resonQ resonTrue resonQ2 resonFit_eq).1

/-- C10: after every successful `fit()`, the object exposes readable
attributes `f_L` and `Q_L` equal to the fitted loaded resonant frequency
and loaded Q of that most recent fit. -/
theorem qfactor_attrs_after_fit (q : Qfactor) (r : FitResult) (q' : Qfactor)
    (h : Qfactor.fit q = .ok (r, q')) :
    q'.f_L = some r.f_L ∧ q'.Q_L = some r.Q_L := by
  obtain ⟨hc, rfl⟩ := fit_ok_inv h
  exact ⟨rfl, rfl⟩

/-- Witness for C10: the fitted synthetic-resonance object exposes
`f_L = 100` and `Q_L = 10`. -/
theorem qfactor_attrs_after_fit_witness :
    resonQ2.f_L = some resonTrue.f_L ∧ resonQ2.Q_L = some resonTrue.Q_L :=
  qfactor_attrs_after_fit resonQ resonTrue resonQ2 resonFit_eq

/-- C9: `fitted_network` called with only a frequency grid evaluates the
fitted model on that grid using the most recent internally stored fit,
returning the same response as passing the fit result explicitly. -/
theorem qfactor_fitted_network_default (q : Qfactor) (r : FitResult) (q' : Qfactor)
    (g : List ℚ) (h : Qfactor.fit q = .ok (r, q')) :
    q'.fitted_network none g = q'.fitted_network (some r) g ∧
      q'.fitted_network none g = .ok { freqs := g, vals := g.map (modelEval r) } := by
  obtain ⟨hc, rfl⟩ := fit_ok_inv h
  exact ⟨rfl, rfl⟩

/-- Witness for C9: evaluating the fitted synthetic-resonance model on a
fresh three-point grid via the stored fit. -/
theorem qfactor_fitted_network_default_witness :
    resonQ2.fitted_network none [99, 100, 101] =
        resonQ2.fitted_network (some resonTrue) [99, 100, 101] ∧
      resonQ2.fitted_network none [99, 100, 101] =
        .ok { freqs := [99, 100, 101], vals := [99, 100, 101].map (modelEval resonTrue) } :=
  qfactor_fitted_network_default resonQ resonTrue resonQ2 [99, 100, 101] resonFit_eq

/-- C6: `Q_unloaded()` with no explicit fit result fails with
`NoFitAvailableError` when `fit()` has never been called; after a
successful `fit()` it uses the most recent internal fit and returns the
same value as passing that result explicitly. -/
theorem qfactor_Q_unloaded_default (q : Qfactor) :
    (q.lastFit = none → q.Q_unloaded none = .error .noFitAvailable) ∧
      (∀ r, q.lastFit = some r → q.Q_unloaded none = q.Q_unloaded (some r)) ∧
      (∀ q₀ r, Qfactor.fit q₀ = .ok (r, q) →
        q.Q_unloaded none = q.Q_unloaded (some r)) := by
  refine ⟨?_, ?_, ?_⟩
  · intro h
    unfold Qfactor.Q_unloaded
    rw [h]
  · intro r h
    unfold Qfactor.Q_unloaded
    rw [h]
  · intro q₀ r h
    obtain ⟨hc, rfl⟩ := fit_ok_inv h
    rfl

/-- Witness for C6: a never-fitted object fails with NoFitAvailableError,
and the fitted synthetic-resonance object answers the same with the stored
fit as with the explicit one. -/
theorem qfactor_Q_unloaded_default_witness :
    resonQ.Q_unloaded none = .error .noFitAvailable ∧
      resonQ2.Q_unloaded none = resonQ2.Q_unloaded (some resonTrue) :=
  ⟨(qfactor_Q_unloaded_default resonQ).1 rfl,
    (qfactor_Q_unloaded_default resonQ2).2.2 resonQ resonTrue resonFit_eq⟩

/-- A three-point input, below the five-point minimum of the fitter. -/
def shortInput : QInput := { freqs := [1, 2, 3], vals := [0, 0, 0] }

/-- A Qfactor object over the three-point input. -/
def shortQ : Qfactor := Qfactor.make shortInput .reflection

/-- C4: `fit()` raises `InsufficientDataError` on fewer than 5 points,
raises `FitDidNotConvergeError` exactly when the iteration budget is
exhausted without meeting tolerance, and produces no partial result on
failure. -/
theorem qfactor_fit_failure (q : Qfactor) :
    (q.input.freqs.length < 5 → Qfactor.fit q = .error .insufficientData) ∧
      (∀ e, 5 ≤ q.input.freqs.length → q.input.valid →
        Qfactor.fit q = .error e → e = .fitDidNotConverge) ∧
      (∀ e, Qfactor.fit q = .error e → ∀ r q', Qfactor.fit q ≠ .ok (r, q')) ∧
      (∀ (ps : List (ℚ × Cplx)) (fmin fmax : ℚ) (θ : FitResult),
        fitLoop ps fmin fmax 0 θ = .error .fitDidNotConverge) := by
  refine ⟨?_, ?_, ?_, ?_⟩
  · intro h
    have hc : fitCompute q.input q.resType = .error .insufficientData := by
      unfold fitCompute
      rw [if_pos h]
    unfold Qfactor.fit
    rw [hc]
  · intro e hlen hval hfit
    unfold Qfactor.fit at hfit
    cases hc : fitCompute q.input q.resType with
    | ok r0 => rw [hc] at hfit; cases hfit
    | error e0 =>
      rw [hc] at hfit
      cases hfit
      unfold fitCompute at hc
      rw [if_neg (by omega : ¬ q.input.freqs.length < 5),
        if_neg (not_not.mpr hval)] at hc
      exact fitLoop_error _ _ _ _ _ _ hc
  · intro e he r q' hok
    rw [he] at hok
    cases hok
  · intro ps fmin fmax θ
    rfl

/-- Witness for C4: the three-point input fails with
`InsufficientDataError`. -/
theorem qfactor_fit_failure_witness :
    Qfactor.fit shortQ = .error .insufficientData :=
  (qfactor_fit_failure shortQ).1 (by decide)

/- ### Properties of the DC-extrapolation grid -/

theorem dcGrid_headD (fs : List ℚ) : (dcGrid fs).headD 1 = 0 := by
  unfold dcGrid
  dsimp only
  rw [List.range_succ_eq_map]
  simp

theorem dcGrid_length (fs : List ℚ) :
    (dcGrid fs).length = (⌈fs.getLastD 0 / minSpacing fs⌉).toNat + 1 := by
  simp [dcGrid]

theorem dcGrid_getD (fs : List ℚ) (i : ℕ) (h : i < (dcGrid fs).length) :
    (dcGrid fs).getD i 0 = (i : ℚ) * minSpacing fs := by
  rw [dcGrid_length] at h
  unfold dcGrid
  rw [List.getD_eq_getElem?_getD, List.getElem?_map, List.getElem?_range (by simpa using h)]
  rfl

theorem getD_getLastD {α : Type} (l : List α) (d : α) (hne : l ≠ []) :
    l.getLastD d = l.getD (l.length - 1) d := by
  induction l with
  | nil => exact absurd rfl hne
  | cons a t ih =>
    cases ht : t with
    | nil => rfl
    | cons b u =>
      rw [List.getLastD_cons, ← ht]
      have htne : t ≠ [] := by rw [ht]; simp
      rw [getLastD_irrel htne a d, ih htne]
      have : (a :: t).length - 1 = (t.length - 1) + 1 := by
        have : t.length ≠ 0 := by
          intro h0
          exact htne (List.eq_nil_of_length_eq_zero h0)
        simp only [List.length_cons]
        omega
      rw [this]
      rfl

theorem le_dcGrid_getLastD (fs : List ℚ) (hinc : strictIncr fs) (h2 : 2 ≤ fs.length) :
    fs.getLastD 0 ≤ (dcGrid fs).getLastD 0 := by
  have hdv : 0 < minSpacing fs := minSpacing_pos hinc h2
  have hne : dcGrid fs ≠ [] := by
    intro h0
    have := dcGrid_length fs
    rw [h0] at this
    simp at this
  rw [getD_getLastD _ _ hne]
  have hl : (dcGrid fs).length - 1 < (dcGrid fs).length := by
    rw [dcGrid_length]
    omega
  rw [dcGrid_getD _ _ hl, dcGrid_length]
  have hceil : fs.getLastD 0 / minSpacing fs ≤ ((⌈fs.getLastD 0 / minSpacing fs⌉.toNat : ℚ)) := by
    calc fs.getLastD 0 / minSpacing fs
        ≤ (⌈fs.getLastD 0 / minSpacing fs⌉ : ℚ) := Int.le_ceil _
    _ ≤ ((⌈fs.getLastD 0 / minSpacing fs⌉.toNat : ℤ) : ℚ) := by
        exact_mod_cast Int.self_le_toNat _
    _ = ((⌈fs.getLastD 0 / minSpacing fs⌉.toNat : ℚ)) := by push_cast; rfl
  have := (div_le_iff hdv).mp hceil
  simpa using this

/- ### Claim theorems for the DC extrapolator -/

/-- C1: for every valid input response and every (kind, basis) pair, the
FrequencyResponse returned by `extrapolate_to_dc` has a frequency grid that
starts at 0 Hz, is uniformly spaced with spacing equal to the smallest
spacing of the original response (the smallest spacing being a spacing of
the input no larger than any other), and extends up to the original maximum
frequency. -/
theorem extrapolate_to_dc_grid (r : FreqResponse) (dc : SMat) (kind : InterpKind)
    (basis : Basis) (r' : FreqResponse) (hv : r.valid) (h2 : 2 ≤ r.freqs.length)
    (hok : extrapolate_to_dc r dc kind basis = .ok r') :
    r'.freqs.headD 1 = 0 ∧
      (∀ i : ℕ, i + 1 < r'.freqs.length →
        r'.freqs.getD (i + 1) 0 - r'.freqs.getD i 0 = minSpacing r.freqs) ∧
      (minSpacing r.freqs ∈ spacings r.freqs ∧
        ∀ s ∈ spacings r.freqs, minSpacing r.freqs ≤ s) ∧
      r.freqs.getLastD 0 ≤ r'.freqs.getLastD 0 := by
  have hf : r'.freqs = dcGrid r.freqs := by
    unfold extrapolate_to_dc at hok
    split at hok
    · cases hok
    · cases hok
      rfl
  rw [hf]
  refine ⟨dcGrid_headD r.freqs, ?_, ⟨minSpacing_mem h2, minSpacing_le h2⟩,
    le_dcGrid_getLastD r.freqs hv.2.1 h2⟩
  intro i hi
  rw [dcGrid_getD _ _ hi, dcGrid_getD _ _ (by omega)]
  push_cast
  ring

/-- A concrete valid two-port response used by the extrapolator witnesses. -/
def flatResponse : FreqResponse := { freqs := [1, 2, 3], vals := [0, 0, 0] }

/-- Witness for C1: extrapolating the concrete response yields the grid
`[0, 1, 2, 3]` with unit spacing. -/
theorem extrapolate_to_dc_grid_witness :
    ({ freqs := [0, 1, 2, 3], vals := [0, 0, 0, 0] } : FreqResponse).freqs.headD 1 = 0 ∧
      (∀ i : ℕ,
        i + 1 < ({ freqs := [0, 1, 2, 3], vals := [0, 0, 0, 0] } : FreqResponse).freqs.length →
        ({ freqs := [0, 1, 2, 3], vals := [0, 0, 0, 0] } : FreqResponse).freqs.getD (i + 1) 0 -
            ({ freqs := [0, 1, 2, 3], vals := [0, 0, 0, 0] } : FreqResponse).freqs.getD i 0 =
          minSpacing flatResponse.freqs) ∧
      (minSpacing flatResponse.freqs ∈ spacings flatResponse.freqs ∧
        ∀ s ∈ spacings flatResponse.freqs, minSpacing flatResponse.freqs ≤ s) ∧
      flatResponse.freqs.getLastD 0 ≤
        ({ freqs := [0, 1, 2, 3], vals := [0, 0, 0, 0] } : FreqResponse).freqs.getLastD 0 :=
  extrapolate_to_dc_grid flatResponse 0 .linear .s
    { freqs := [0, 1, 2, 3], vals := [0, 0, 0, 0] }
    (by decide) (by decide) (by with_unfolding_all decide)

/-- C5: with basis T-parameters, `extrapolate_to_dc` raises
`UnsupportedBasisError` whenever some transmission sample `S21` is exactly
zero, and performs the T-basis transform (returns a response) whenever
every `S21` sample is non-zero. -/
theorem extrapolate_to_dc_t_guard (r : FreqResponse) (dc : SMat) (kind : InterpKind)
    (hv : r.valid) :
    ((∃ m ∈ r.vals, m.m21 = 0) →
      extrapolate_to_dc r dc kind .t = .error .unsupportedBasis) ∧
      ((∀ m ∈ r.vals, m.m21 ≠ 0) →
        ∃ r', extrapolate_to_dc r dc kind .t = .ok r') := by
  constructor
  · intro hex
    unfold extrapolate_to_dc
    rw [if_pos]
    refine ⟨rfl, ?_⟩
    obtain ⟨m, hm, h0⟩ := hex
    simp only [List.any_eq_true, decide_eq_true_eq]
    exact ⟨m, hm, h0⟩
  · intro hall
    unfold extrapolate_to_dc
    rw [if_neg]
    · exact ⟨_, rfl⟩
    · intro hcond
      obtain ⟨-, hany⟩ := hcond
      simp only [List.any_eq_true, decide_eq_true_eq] at hany
      obtain ⟨m, hm, h0⟩ := hany
      exact hall m hm h0

/- ### Exactness of the linear interpolant at the last knot -/

theorem strictIncr_cons_zero {fs : List ℚ} (hinc : strictIncr fs)
    (hpos : ∀ f ∈ fs, 0 < f) : strictIncr (0 :: fs) := by
  cases fs with
  | nil => trivial
  | cons f t => exact ⟨hpos f (List.mem_cons_self f t), hinc⟩

theorem getD_map_lt {α β : Type} (f : α → β) (l : List α) (i : ℕ)
    (h : i < l.length) (d : β) (d' : α) : (l.map f).getD i d = f (l.getD i d') := by
  rw [List.getD_eq_getElem?_getD, List.getElem?_map, List.getElem?_eq_getElem h,
    List.getD_eq_getElem?_getD, List.getElem?_eq_getElem h]
  rfl

theorem smat_ext_iff {m n : SMat} :
    m = n ↔ m.m11 = n.m11 ∧ m.m12 = n.m12 ∧ m.m21 = n.m21 ∧ m.m22 = n.m22 := by
  constructor
  · intro h; exact ⟨by rw [h], by rw [h], by rw [h], by rw [h]⟩
  · intro h
    cases m; cases n
    simp only [SMat.mk.injEq]
    exact ⟨h.1, h.2.1, h.2.2.1, h.2.2.2⟩

theorem lin_segment_last {p q : Cplx} {x0 x1 : ℚ} (hpq : x0 < x1) :
    p + Cplx.smul ((x1 - x0) / (x1 - x0)) (q - p) = q := by
  rw [div_self (ne_of_gt (sub_pos.mpr hpq))]
  rw [Cplx.ext_iff]
  constructor <;> simp <;> ring

theorem linEval_getLastD :
    ∀ (ps : List (ℚ × Cplx)), ps ≠ [] → strictIncr (ps.map Prod.fst) →
      linEval ps (ps.getLastD (0, 0)).1 = (ps.getLastD (0, 0)).2 := by
  intro ps
  induction ps with
  | nil => intro h; exact absurd rfl h
  | cons p rest ih =>
    intro _ hinc
    obtain ⟨px, py⟩ := p
    cases rest with
    | nil => rfl
    | cons q t =>
      obtain ⟨qx, qy⟩ := q
      have hlast : (((px, py) :: (qx, qy) :: t).getLastD (0, 0)) =
          (((qx, qy) :: t).getLastD (0, 0)) := by
        rw [List.getLastD_cons]
        exact getLastD_irrel (by simp) (px, py) (0, 0)
      rw [hlast]
      have hinc' : strictIncr (((qx, qy) :: t).map Prod.fst) := strictIncr_tail hinc
      cases t with
      | nil =>
        show (if qx ≤ qx then py + Cplx.smul ((qx - px) / (qx - px)) (qy - py)
          else linEval [(qx, qy)] qx) = qy
        rw [if_pos (le_refl qx)]
        exact lin_segment_last hinc.1
      | cons s u =>
        have hmapLast : (((qx, qy) :: s :: u).map Prod.fst).getLastD 0 =
            (((qx, qy) :: s :: u).getLastD (0, 0)).1 := by
          have := List.getLastD_map Prod.fst ((qx, qy) :: s :: u) ((0 : ℚ), (0 : Cplx))
          simpa using this
        have hq_lt : qx < (((qx, qy) :: s :: u).getLastD (0, 0)).1 := by
          rw [← hmapLast]
          have h1 : ((s :: u).map Prod.fst) ≠ [] := by simp
          have hinc2 : strictIncr (qx :: (s :: u).map Prod.fst) := hinc'
          have h2 := strictIncr_lt_getLastD hinc2 h1 (0 : ℚ)
          calc qx < ((s :: u).map Prod.fst).getLastD 0 := h2
          _ = (((qx, qy) :: s :: u).map Prod.fst).getLastD 0 := by
              show _ = (qx :: (s :: u).map Prod.fst).getLastD 0
              rw [List.getLastD_cons]
              exact (@getLastD_irrel _ ((s :: u).map Prod.fst) (by simp) 0 qx).symm
        show (if (((qx, qy) :: s :: u).getLastD (0, 0)).1 ≤ qx then _
          else linEval ((qx, qy) :: s :: u) ((((qx, qy) :: s :: u).getLastD (0, 0)).1)) = _
        rw [if_neg (not_le.mpr hq_lt)]
        exact ih (by simp) hinc'

theorem interpMat_linear_getLastD (ps : List (ℚ × SMat)) (hne : ps ≠ [])
    (hinc : strictIncr (ps.map Prod.fst)) :
    interpMat .linear ps (ps.getLastD (0, 0)).1 = (ps.getLastD (0, 0)).2 := by
  have hmap : ∀ g : SMat → Cplx,
      (ps.map fun p => (p.1, g p.2)).map Prod.fst = ps.map Prod.fst := by
    intro g
    rw [List.map_map]
    rfl
  have hlastc : ∀ g : SMat → Cplx, g 0 = 0 →
      (ps.map fun p => (p.1, g p.2)).getLastD (0, 0) =
        ((ps.getLastD (0, 0)).1, g (ps.getLastD (0, 0)).2) := by
    intro g hg0
    have := List.getLastD_map (fun p : ℚ × SMat => (p.1, g p.2)) ps ((0 : ℚ), (0 : SMat))
    rw [hg0] at this
    exact this
  have hcomp : ∀ g : SMat → Cplx, g 0 = 0 →
      linEval (ps.map fun p => (p.1, g p.2)) (ps.getLastD (0, 0)).1 =
        g (ps.getLastD (0, 0)).2 := by
    intro g hg0
    have hne' : (ps.map fun p => (p.1, g p.2)) ≠ [] := by
      intro h0
      exact hne (List.map_eq_nil.mp h0)
    have hinc'' : strictIncr ((ps.map fun p => (p.1, g p.2)).map Prod.fst) := by
      rw [hmap g]; exact hinc
    have h := linEval_getLastD _ hne' hinc''
    rw [hlastc g hg0] at h
    exact h
  rw [smat_ext_iff]
  exact ⟨hcomp (fun m => m.m11) rfl, hcomp (fun m => m.m12) rfl,
    hcomp (fun m => m.m21) rfl, hcomp (fun m => m.m22) rfl⟩

/-- C8: the output of `extrapolate_to_dc` with kind linear (S basis),
evaluated at the original maximum frequency — an existing knot of the
piecewise-linear interpolant — equals the input response's value at that
frequency exactly. -/
theorem extrapolate_to_dc_linear_exact (r : FreqResponse) (dc : SMat)
    (r' : FreqResponse) (hv : r.valid) (h2 : 2 ≤ r.freqs.length)
    (hok : extrapolate_to_dc r dc .linear .s = .ok r') (i : ℕ)
    (hi : i < r'.freqs.length) (hfi : r'.freqs.getD i 0 = r.freqs.getLastD 0) :
    r'.vals.getD i 0 = r.vals.getLastD 0 := by
  obtain ⟨hlen, hinc, hpos⟩ := hv
  unfold extrapolate_to_dc at hok
  split at hok
  · cases hok
  · cases hok
    dsimp only at hi hfi ⊢
    have hmapid : r.vals.map (toBasis .s) = r.vals := by
      show r.vals.map id = r.vals
      exact List.map_id r.vals
    rw [getD_map_lt _ _ i hi _ (0 : ℚ), hfi]
    show interpMat .linear ((0, toBasis Basis.s dc) ::
      (r.freqs.zip (r.vals.map (toBasis Basis.s)))) (r.freqs.getLastD 0) = _
    rw [show toBasis Basis.s dc = dc from rfl, hmapid]
    have hzne : r.freqs.zip r.vals ≠ [] := by
      intro h0
      have := List.length_zip r.freqs r.vals
      rw [h0, ← hlen] at this
      simp at this
      omega
    have hinck : strictIncr ((((0 : ℚ), dc) :: (r.freqs.zip r.vals)).map Prod.fst) := by
      have hm : (((0 : ℚ), dc) :: (r.freqs.zip r.vals)).map Prod.fst = 0 :: r.freqs := by
        show 0 :: (r.freqs.zip r.vals).map Prod.fst = 0 :: r.freqs
        rw [List.map_fst_zip _ _ (le_of_eq hlen)]
      rw [hm]
      exact strictIncr_cons_zero hinc hpos
    have hlastk : ((((0 : ℚ), dc) :: (r.freqs.zip r.vals)).getLastD (0, 0)) =
        (r.freqs.getLastD 0, r.vals.getLastD 0) := by
      rw [List.getLastD_cons, getLastD_irrel hzne ((0 : ℚ), dc) ((0 : ℚ), (0 : SMat))]
      exact getLastD_zip _ _ _ _ hlen
    have hmain := interpMat_linear_getLastD (((0 : ℚ), dc) :: (r.freqs.zip r.vals))
      (by simp) hinck
    rw [hlastk] at hmain
    exact hmain

/-- Witness for C8: the linear extrapolation of the concrete response
reproduces the input's last sample at the original maximum frequency 3. -/
theorem extrapolate_to_dc_linear_exact_witness :
    ({ freqs := [0, 1, 2, 3], vals := [0, 0, 0, 0] } : FreqResponse).vals.getD 3 0 =
      flatResponse.vals.getLastD 0 :=
  extrapolate_to_dc_linear_exact flatResponse 0
    { freqs := [0, 1, 2, 3], vals := [0, 0, 0, 0] }
    (by decide) (by decide) (by with_unfolding_all decide) 3 (by decide)
    (by with_unfolding_all decide)

/-- A concrete two-port response whose middle sample has `S21 = 0`. -/
def zeroS21Response : FreqResponse :=
  { freqs := [1, 2, 3]
    vals := [⟨1, 0, 0, 1⟩, ⟨1, 0, 0, 1⟩, ⟨1, 0, 0, 1⟩] }

/-- Witness for C5: the zero-transmission response makes the T-basis
extrapolation fail with `UnsupportedBasisError`. -/
theorem extrapolate_to_dc_t_guard_witness :
    extrapolate_to_dc zeroS21Response 0 .cubic .t = .error .unsupportedBasis :=
  (extrapolate_to_dc_t_guard zeroS21Response 0 .cubic (by decide)).1
    ⟨⟨1, 0, 0, 1⟩, by decide, rfl⟩

end SkrfSpec
